import Mathlib

/-!
Shallow embedding of the study-time allocation and session-scheduling core of
the SmartStudy Assistance backend, translated from
ai-backend/models/timetable_generator.py and ai-backend/main.py.

Conventions of the embedding:
* Python dicts that are built key-by-key over a subject list are modelled as
  association lists in iteration order; the data model declares subject names
  unique within a request, under which the two representations agree.
* Python float arithmetic on weights and shares is modelled by exact rational
  arithmetic; Python int() truncation toward zero is the function pytrunc.
* Python floor division and modulo on integers are the division and modulo
  of Lean's Int, which agree with Python's for the positive divisors
  (list lengths, the constant 2) occurring in this code.
* Wall-clock values (ids built from timestamps, dates of day schedules,
  creation timestamps) and collaborator prose (LLM recommendation strings)
  are omitted from the embedded records: no claim mentions them.
* Code that raises an unhandled exception (division by zero on empty subject
  or topic lists, zero total weight) is modelled by Except values.
-/

namespace SmartStudy

/-- Truncation toward zero: the behaviour of Python int() on a number.  On
the normalized rational this is the truncating division of the numerator by
the (positive) denominator. -/
def pytrunc (q : ℚ) : ℤ := Int.tdiv q.num (q.den : ℤ)

instance instDecEqExcept {ε α : Type} [DecidableEq ε] [DecidableEq α] :
    DecidableEq (Except ε α) := fun a b =>
  match a, b with
  | Except.error e, Except.error e' =>
      if h : e = e' then isTrue (by rw [h])
      else isFalse (fun hh => h (by injection hh))
  | Except.ok x, Except.ok y =>
      if h : x = y then isTrue (by rw [h])
      else isFalse (fun hh => h (by injection hh))
  | Except.error _, Except.ok _ => isFalse (fun hh => Except.noConfusion hh)
  | Except.ok _, Except.error _ => isFalse (fun hh => Except.noConfusion hh)

/-- A subject as consumed by TimetableGenerator.generate_timetable: name,
topic list and a weightage mapping (topic name to number).  The weightage
dict is an association list; [] models an absent or empty dict, matching the
falsiness of subject.get('weightage') in Python. -/
structure Subject where
  name : String
  topics : List String
  weightage : List (String × ℚ)
deriving DecidableEq

/-- Dummy subject used as the default of List.getD in theorem statements. -/
def sdummy : Subject := Subject.mk "" [] []

/-- Effective weight of a subject in weighted mode: the sum of its weightage
values, or the default weight 1 when it supplies none
(timetable_generator.py lines 77 to 88). -/
def effWeight (s : Subject) : ℚ :=
  if s.weightage.isEmpty then 1 else (s.weightage.map Prod.snd).sum

/-- Total weight over all subjects (timetable_generator.py lines 77 to 82). -/
def totalWeight (subjects : List Subject) : ℚ := (subjects.map effWeight).sum

/-- TimetableGenerator._calculate_subject_hours (timetable_generator.py lines
64 to 92).  Equal-split mode when no subject supplies weightage: integer
division plus one extra hour for the first remainder subjects.  Weighted mode
otherwise: int((weight / total_weight) * total_hours) per subject.  The
result is the subject_hours dict in iteration order. -/
def calculateSubjectHours (subjects : List Subject) (totalHours : ℤ) :
    List (String × ℤ) :=
  if subjects.all (fun s => s.weightage.isEmpty) then
    let n : ℤ := (subjects.length : ℤ)
    let q := totalHours / n
    let r := totalHours % n
    subjects.enum.map (fun p => (p.2.name, q + if (p.1 : ℤ) < r then 1 else 0))
  else
    let w := totalWeight subjects
    subjects.map (fun s => (s.name, pytrunc (effWeight s / w * totalHours)))

-- ===================================================================
-- Enhanced (priority-optimized) path: main.py generate_enhanced_fallback_timetable
-- ===================================================================

/-- A subject dict as received by the enhanced endpoint (main.py).  The
examDate string together with the strptime parse and the subtraction of
today is modelled by its outcome: none when the key is absent or the string
empty, some none when present but unparseable, some (some d) when it parses
with d days until the exam.  The topics key may be absent (none); explicit
empty lists are kept distinct because subject.get('topics', [name]) only
substitutes the default when the key is missing. -/
structure RawSubject where
  name : String
  topics : Option (List String)
  examParse : Option (Option ℤ)
  estimatedHours : Option ℤ
deriving DecidableEq

/-- Priority Classifier (main.py lines 212 to 224): days-until and numeric
tier from the exam-date parse outcome.  Absent or unparseable dates yield
30 days and tier 3. -/
def classify (parsed : Option (Option ℤ)) : ℤ × ℕ :=
  match parsed with
  | some (some d) => (d, if d ≤ 7 then 1 else if d ≤ 14 then 2 else 3)
  | some none => (30, 3)
  | none => (30, 3)

/-- The string tier used by generate_enhanced_timetable (main.py line 146). -/
def priorityLabelOfDays (d : ℤ) : String :=
  if d ≤ 7 then "High" else if d ≤ 14 then "Medium" else "Low"

/-- Subject annotated with days_until_exam and priority (main.py lines 226
to 230), with the estimatedHours default of 20 applied where consumed. -/
structure ASubject where
  name : String
  topics : Option (List String)
  estimatedHours : ℤ
  daysUntil : ℤ
  priority : ℕ
deriving DecidableEq

/-- Annotation loop of generate_enhanced_fallback_timetable (main.py lines
210 to 230): every subject is tagged and appended, none is dropped. -/
def annotate (subjects : List RawSubject) : List ASubject :=
  subjects.map (fun s =>
    let dp := classify s.examParse
    ASubject.mk s.name s.topics (s.estimatedHours.getD 20) dp.1 dp.2)

/-- Stable insertion used to model Python's stable sort by key. -/
def insSorted (le : α → α → Bool) (a : α) : List α → List α
  | [] => [a]
  | b :: bs => if le a b then a :: b :: bs else b :: insSorted le a bs

/-- Stable sort by a boolean less-or-equal test (Python list.sort(key=...)). -/
def sortBy (le : α → α → Bool) : List α → List α
  | [] => []
  | a :: as => insSorted le a (sortBy le as)

/-- Sort key of main.py line 233: the pair (priority, days_until_exam). -/
def subjLe (a b : ASubject) : Bool :=
  decide (a.priority < b.priority ∨
    (a.priority = b.priority ∧ a.daysUntil ≤ b.daysUntil))

def sortedSubjects (subjects : List RawSubject) : List ASubject :=
  sortBy subjLe (annotate subjects)

/-- Python min(list, default=d): the minimum of a list, or the default when
the list is empty (main.py line 236). -/
def listMin (l : List ℤ) (dflt : ℤ) : ℤ :=
  match l with
  | [] => dflt
  | x :: xs => xs.foldl min x

/-- Earliest positive days-until-exam, default 30 (main.py line 236). -/
def minDays (l : List ASubject) : ℤ :=
  listMin ((l.map ASubject.daysUntil).filter (fun d => 0 < d)) 30

/-- Schedule horizon of the enhanced path (main.py line 237). -/
def enhTotalDays (l : List ASubject) : ℤ := max 7 (min (minDays l) 60)

def totalEstimated (l : List ASubject) : ℤ := (l.map ASubject.estimatedHours).sum

/-- Priority multiplier of main.py line 260 (1.5 High, 1.2 Medium, 1.0
otherwise), as an exact rational. -/
def priorityMultiplier (p : ℕ) : ℚ :=
  if p = 1 then 3 / 2 else if p = 2 then 6 / 5 else 1

/-- Hour allocation of the enhanced path (main.py lines 258 to 265):
min(int(share * total_hours * multiplier), estimated). -/
def enhancedAlloc (l : List ASubject) (totalHours : ℤ) (s : ASubject) : ℤ :=
  min (pytrunc ((s.estimatedHours : ℚ) / (totalEstimated l : ℚ)
        * (totalHours : ℚ) * priorityMultiplier s.priority))
    s.estimatedHours

/-- The subject_hours dict of the enhanced timetable, in loop order. -/
def enhSubjectHours (l : List ASubject) (totalHours : ℤ) : List (String × ℤ) :=
  l.map (fun s => (s.name, enhancedAlloc l totalHours s))

/-- Dict read d[k]; the Python KeyError case cannot occur where this is used
because every key read was written in the same run. -/
def dictGet (d : List (String × ℤ)) (k : String) : ℤ := (d.lookup k).getD 0

/-- Python str.strip(): drop leading and trailing whitespace, written over
the character list so that it evaluates by the kernel. -/
def pyStrip (s : String) : String :=
  String.mk (((s.data.dropWhile Char.isWhitespace).reverse.dropWhile
    Char.isWhitespace).reverse)

/-- One schedulable unit of the topic pool (main.py lines 278 to 284). -/
structure TopicUnit where
  subject : String
  topic : String
  hoursNeeded : ℤ
  priority : ℕ
  daysUntil : ℤ
deriving DecidableEq

/-- Topic pool of the enhanced path before sorting (main.py lines 270 to
284): one unit per topic that is non-empty after stripping, with
hours_per_topic = max(1, subject_hours // topic_count). -/
def buildPoolRaw (l : List ASubject) (sh : List (String × ℤ)) : List TopicUnit :=
  (l.map (fun s =>
    let topics := s.topics.getD [s.name]
    let hpt : ℤ := max 1 (dictGet sh s.name / (topics.length : ℤ))
    (topics.filter (fun t => pyStrip t ≠ "")).map (fun t =>
      TopicUnit.mk s.name (pyStrip t) hpt s.priority s.daysUntil))).flatten

/-- Sort key of main.py line 287: (priority, days_until_exam). -/
def tuLe (a b : TopicUnit) : Bool :=
  decide (a.priority < b.priority ∨
    (a.priority = b.priority ∧ a.daysUntil ≤ b.daysUntil))

def buildPool (l : List ASubject) (sh : List (String × ℤ)) : List TopicUnit :=
  sortBy tuLe (buildPoolRaw l sh)

/-- One scheduled session.  Basic-path sessions carry no priority label
(the none case). -/
structure Session where
  sessionId : String
  subject : String
  topic : String
  duration : ℤ
  timeSlot : String
  priorityLabel : Option String
deriving DecidableEq

/-- Dummy session used as the default of List.getD in theorem statements. -/
def sessDummy : Session := Session.mk "" "" "" 0 "" none

/-- Synthesized slot label of the enhanced and main-fallback paths
(main.py lines 316, 340, 834). -/
def mkSlot2 (i : ℕ) : String :=
  toString (9 + i * 2) ++ ":00-" ++ toString (11 + i * 2) ++ ":00"

/-- Slot for session index i: the caller-supplied list while it lasts, then
the synthesized label (main.py lines 316 and 340). -/
def enhSlot (ts : List String) (i : ℕ) : String :=
  if i < ts.length then ts.getD i "" else mkSlot2 i

def mkEnhId (dayIdx sc : ℕ) : String :=
  "enhanced_s_" ++ toString (dayIdx + 1) ++ "_" ++ toString (sc + 1)

/-- General-pass priority label (main.py line 342). -/
def tierLabel (p : ℕ) : String :=
  if p = 1 then "high" else if p = 2 then "medium" else "low"

/-- Focus pass of the enhanced packer (main.py lines 309 to 331): up to two
sessions drawn from pool units of the focus subject with hours remaining,
stopping when the day budget is exhausted.  The Python loop iterates a
filtered snapshot and mutates the underlying units; each matching unit is
visited once in pool order, which this recursion reproduces. -/
def runFocus (ts : List String) (dayIdx : ℕ) (f : String) :
    ℕ → ℤ → ℕ → List TopicUnit → List Session × ℤ × ℕ × List TopicUnit
  | _, avail, sc, [] => ([], avail, sc, [])
  | slots, avail, sc, u :: rest =>
    if u.subject = f ∧ 0 < u.hoursNeeded then
      match slots with
      | 0 => ([], avail, sc, u :: rest)
      | slots' + 1 =>
        if avail ≤ 0 then ([], avail, sc, u :: rest)
        else
          let h := min 2 (min avail u.hoursNeeded)
          let sess := Session.mk (mkEnhId dayIdx sc) u.subject u.topic h
            (enhSlot ts sc) (some "high")
          let rec4 := runFocus ts dayIdx f slots' (avail - h) (sc + 1) rest
          (sess :: rec4.1, rec4.2.1, rec4.2.2.1,
            TopicUnit.mk u.subject u.topic (u.hoursNeeded - h) u.priority
              u.daysUntil :: rec4.2.2.2)
    else
      let rec4 := runFocus ts dayIdx f slots avail sc rest
      (rec4.1, rec4.2.1, rec4.2.2.1, u :: rec4.2.2.2)

/-- General pass of the enhanced packer (main.py lines 333 to 357): walk the
units with hours remaining, stopping at an exhausted budget or the fourth
session of the day. -/
def runGeneral (ts : List String) (dayIdx : ℕ) :
    ℤ → ℕ → List TopicUnit → List Session × ℤ × ℕ × List TopicUnit
  | avail, sc, [] => ([], avail, sc, [])
  | avail, sc, u :: rest =>
    if 0 < u.hoursNeeded then
      if avail ≤ 0 ∨ 4 ≤ sc then ([], avail, sc, u :: rest)
      else
        let h := min 2 (min avail u.hoursNeeded)
        let sess := Session.mk (mkEnhId dayIdx sc) u.subject u.topic h
          (enhSlot ts sc) (some (tierLabel u.priority))
        let rec4 := runGeneral ts dayIdx (avail - h) (sc + 1) rest
        (sess :: rec4.1, rec4.2.1, rec4.2.2.1,
          TopicUnit.mk u.subject u.topic (u.hoursNeeded - h) u.priority
            u.daysUntil :: rec4.2.2.2)
    else
      let rec4 := runGeneral ts dayIdx avail sc rest
      (rec4.1, rec4.2.1, rec4.2.2.1, u :: rec4.2.2.2)

structure DaySchedule where
  day : ℕ
  sessions : List Session
  focusSubject : Option String
deriving DecidableEq

/-- Dummy day schedule used as the default of List.getD in statements. -/
def dayDummy : DaySchedule := DaySchedule.mk 0 [] none

/-- Focus subject of a day: round-robin over the high-priority subjects
(main.py lines 294 to 295). -/
def focusOf (high : List ASubject) (dayIdx : ℕ) : Option String :=
  match high with
  | [] => none
  | h :: t => some (((h :: t).getD (dayIdx % (h :: t).length) h).name)

/-- One day of the enhanced packer: focus pass then general pass, threading
the pool (main.py lines 290 to 359). -/
def packDay (ts : List String) (hpd : ℤ) (high : List ASubject) (dayIdx : ℕ)
    (pool : List TopicUnit) : DaySchedule × List TopicUnit :=
  match focusOf high dayIdx with
  | some f =>
      let r1 := runFocus ts dayIdx f 2 hpd 0 pool
      let r2 := runGeneral ts dayIdx r1.2.1 r1.2.2.1 r1.2.2.2
      (DaySchedule.mk (dayIdx + 1) (r1.1 ++ r2.1) (some f), r2.2.2.2)
  | none =>
      let r2 := runGeneral ts dayIdx hpd 0 pool
      (DaySchedule.mk (dayIdx + 1) r2.1 none, r2.2.2.2)

/-- The day loop (main.py line 290), one DaySchedule per day. -/
def packAll (ts : List String) (hpd : ℤ) (high : List ASubject) :
    ℕ → ℕ → List TopicUnit → List DaySchedule
  | 0, _, _ => []
  | n + 1, dayIdx, pool =>
      let r := packDay ts hpd high dayIdx pool
      r.1 :: packAll ts hpd high n (dayIdx + 1) r.2

/-- The enhanced timetable record; id, created_at and prose fields are
omitted (wall clock and collaborator text). -/
structure EnhTimetable where
  totalDays : ℤ
  hoursPerDay : ℤ
  totalHours : ℤ
  subjects : List ASubject
  subjectHours : List (String × ℤ)
  dailySchedule : List DaySchedule
deriving DecidableEq

/-- main.py generate_enhanced_fallback_timetable (lines 205 to 361) as a
total function on inputs where it does not raise. -/
def enhancedFallback (subjects : List RawSubject) (hpd : ℤ) (ts : List String) :
    EnhTimetable :=
  let sorted := sortedSubjects subjects
  let totalDays := enhTotalDays sorted
  let totalHours := totalDays * hpd
  let sh := enhSubjectHours sorted totalHours
  let pool := buildPool sorted sh
  let high := sorted.filter (fun s => s.priority = 1)
  EnhTimetable.mk totalDays hpd totalHours sorted sh
    (packAll ts hpd high totalDays.toNat 0 pool)

/-- main.py generate_enhanced_fallback_timetable with its two unhandled
ZeroDivisionError sites made explicit: a zero estimated-hours total with a
nonempty subject list (line 263), and an explicitly empty topics list
(line 274). -/
def enhancedFallbackRun (subjects : List RawSubject) (hpd : ℤ)
    (ts : List String) : Except Unit EnhTimetable :=
  if subjects ≠ [] ∧ totalEstimated (annotate subjects) = 0 then Except.error ()
  else if subjects.any (fun s => s.topics = some []) then Except.error ()
  else Except.ok (enhancedFallback subjects hpd ts)

-- ===================================================================
-- Basic generator path: timetable_generator.py generate_timetable and
-- _generate_daily_schedule
-- ===================================================================

/-- A unit of the generator's topic pool (timetable_generator.py lines 100
to 118): mutable remaining hours and a completed flag. -/
structure BTopic where
  subject : String
  topic : String
  estimatedHours : ℤ
  completed : Bool
deriving DecidableEq

def btDummy : BTopic := BTopic.mk "" "" 0 false

/-- Topic pool of _generate_daily_schedule (timetable_generator.py lines 100
to 118).  Topic names are used verbatim, with no strip filter; hours per
topic are floored at 1 and scaled by the topic's own weightage entry when
one exists. -/
def bTopicPool (subjects : List Subject) (sh : List (String × ℤ)) :
    List BTopic :=
  (subjects.map (fun s =>
    let hpt : ℤ := max 1 (dictGet sh s.name / (s.topics.length : ℤ))
    s.topics.map (fun t =>
      let th : ℤ := match s.weightage.lookup t with
        | some w => pytrunc ((hpt : ℚ) * w)
        | none => hpt
      BTopic.mk s.name t (max 1 th) false))).flatten

/-- Slot of the generator's packer (timetable_generator.py lines 145 to
148): a preferred slot by session index while they last, then the
synthesized label 9+i to 9+i+duration. -/
def genSlot (ts : List String) (sc : ℕ) (h : ℤ) : String :=
  if sc < ts.length then ts.getD sc ""
  else toString (9 + sc) ++ ":00-" ++ toString (9 + (sc : ℤ) + h) ++ ":00"

/-- Replace the j-th uncompleted entry of the pool, modelling the in-place
mutation of the selected dict (timetable_generator.py lines 162 to 165). -/
def updateUncompleted (j : ℕ) (f : BTopic → BTopic) :
    List BTopic → List BTopic
  | [] => []
  | t :: rest =>
    if t.completed then t :: updateUncompleted j f rest
    else match j with
      | 0 => f t :: rest
      | j' + 1 => t :: updateUncompleted j' f rest

/-- The while loop of _generate_daily_schedule for one day
(timetable_generator.py lines 129 to 172).  The loop body always increments
session_count and breaks at 4 sessions, so the remaining session budget is
structural fuel. -/
def bLoop (ts : List String) (dayIdx : ℕ) :
    ℕ → ℤ → ℕ → List BTopic → List Session × List BTopic
  | 0, _, _, pool => ([], pool)
  | fuel + 1, avail, sc, pool =>
    if avail ≤ 0 then ([], pool)
    else if pool.isEmpty then ([], pool)
    else
      let unc := pool.filter (fun t => !t.completed)
      if unc.isEmpty then ([], pool)
      else
        let u := unc.getD (sc % unc.length) btDummy
        let h := min avail (min 2 u.estimatedHours)
        let sess := Session.mk
          ("s_" ++ toString (dayIdx + 1) ++ "_" ++ toString (sc + 1))
          u.subject u.topic h (genSlot ts sc h) none
        let pool' := updateUncompleted (sc % unc.length) (fun t =>
          BTopic.mk t.subject t.topic (t.estimatedHours - h)
            (decide (t.estimatedHours - h ≤ 0))) pool
        let r := bLoop ts dayIdx fuel (avail - h) (sc + 1) pool'
        (sess :: r.1, r.2)

/-- The day loop of _generate_daily_schedule (timetable_generator.py lines
121 to 174), threading the pool across days. -/
def bDays (ts : List String) (hpd : ℤ) :
    ℕ → ℕ → List BTopic → List DaySchedule
  | 0, _, _ => []
  | n + 1, dayIdx, pool =>
    let r := bLoop ts dayIdx 4 hpd 0 pool
    DaySchedule.mk (dayIdx + 1) r.1 none :: bDays ts hpd n (dayIdx + 1) r.2

/-- The generator timetable; id, created_at, subjects echo, LLM
recommendations and completion_status are omitted. -/
structure GenTimetable where
  totalDays : ℕ
  hoursPerDay : ℤ
  totalHours : ℤ
  subjectHours : List (String × ℤ)
  dailySchedule : List DaySchedule
deriving DecidableEq

/-- TimetableGenerator.generate_timetable (timetable_generator.py lines 10
to 58) as a total function on inputs where it does not raise. -/
def generatorTimetable (subjects : List Subject) (daysAvailable : ℕ)
    (hpd : ℤ) (ts : List String) : GenTimetable :=
  let totalHours : ℤ := (daysAvailable : ℤ) * hpd
  let sh := calculateSubjectHours subjects totalHours
  GenTimetable.mk daysAvailable hpd totalHours sh
    (bDays ts hpd daysAvailable 0 (bTopicPool subjects sh))

/-- TimetableGenerator.generate_timetable with its unhandled
ZeroDivisionError sites explicit: an empty subject list (equal-split
division, line 70), a zero total weight in weighted mode (line 90), and an
empty topic list of some subject (line 104). -/
def generatorRun (subjects : List Subject) (daysAvailable : ℕ) (hpd : ℤ)
    (ts : List String) : Except Unit GenTimetable :=
  if subjects.isEmpty then Except.error ()
  else if ¬ subjects.all (fun s => s.weightage.isEmpty)
      ∧ totalWeight subjects = 0 then Except.error ()
  else if subjects.any (fun s => s.topics.isEmpty) then Except.error ()
  else Except.ok (generatorTimetable subjects daysAvailable hpd ts)

-- ===================================================================
-- Basic fallback path: main.py generate_fallback_timetable
-- ===================================================================

structure FbTopic where
  subject : String
  topic : String
  hoursNeeded : ℤ
deriving DecidableEq

def fbDummy : FbTopic := FbTopic.mk "" "" 0

/-- Topic pool of generate_fallback_timetable (main.py lines 806 to 814):
topics stripped, empty ones dropped, fixed 2 hours each. -/
def fbTopicPool (subjects : List Subject) : List FbTopic :=
  (subjects.map (fun s =>
    (s.topics.filter (fun t => pyStrip t ≠ "")).map
      (fun t => FbTopic.mk s.name (pyStrip t) 2))).flatten

/-- Session loop of one fallback day (main.py lines 828 to 846): up to
sessions_per_day iterations, each emitting one 2-hour session while the
global topic index has not run off the pool. -/
def fbRun (ts : List String) (pool : List FbTopic) (dayIdx : ℕ) :
    ℕ → ℕ → ℕ → List Session × ℕ
  | 0, _, idx => ([], idx)
  | k + 1, sess, idx =>
    if ¬ pool.isEmpty ∧ idx < pool.length then
      let ti := pool.getD (idx % pool.length) fbDummy
      let slot := if sess < ts.length then ts.getD sess "" else mkSlot2 sess
      let r := fbRun ts pool dayIdx k (sess + 1) (idx + 1)
      (Session.mk
          ("fb_s_" ++ toString (dayIdx + 1) ++ "_" ++ toString (sess + 1))
          ti.subject ti.topic 2 slot none :: r.1, r.2)
    else
      let r := fbRun ts pool dayIdx k (sess + 1) idx
      (r.1, r.2)

/-- Day loop of the fallback (main.py lines 818 to 848). -/
def fbDays (ts : List String) (pool : List FbTopic) (spd : ℕ) :
    ℕ → ℕ → ℕ → List DaySchedule
  | 0, _, _ => []
  | n + 1, dayIdx, idx =>
    let r := fbRun ts pool dayIdx spd 0 idx
    DaySchedule.mk (dayIdx + 1) r.1 none :: fbDays ts pool spd n (dayIdx + 1) r.2

structure FbTimetable where
  totalDays : ℕ
  hoursPerDay : ℤ
  totalHours : ℤ
  subjectHours : List (String × ℤ)
  dailySchedule : List DaySchedule
deriving DecidableEq

/-- main.py generate_fallback_timetable (lines 764 to 850): equal hours per
subject (no remainder distribution), 2-hour sessions, at most
min(hours_per_day div 2, 4) sessions per day, at most 30 days.  This
function is total: it raises on no input. -/
def fallbackTimetable (subjects : List Subject) (daysUntil : ℕ) (hpd : ℤ)
    (ts : List String) : FbTimetable :=
  let totalHours : ℤ := (daysUntil : ℤ) * hpd
  let sh := if subjects.isEmpty then []
    else subjects.map (fun s => (s.name, totalHours / (subjects.length : ℤ)))
  let spd := (min (hpd / 2) 4).toNat
  FbTimetable.mk daysUntil hpd totalHours sh
    (fbDays ts (fbTopicPool subjects) spd (min daysUntil 30) 0 0)

-- ===================================================================
-- Endpoints and reschedule: main.py
-- ===================================================================

/-- Result of the basic endpoint: the generator timetable, or the fallback
timetable when the generator raised. -/
inductive TimetableResult where
  | gen : GenTimetable → TimetableResult
  | fb : FbTimetable → TimetableResult
deriving DecidableEq

/-- main.py generate_timetable (lines 702 to 762) after its exam-date
validation: the generator is attempted and any exception is recovered by
generate_fallback_timetable, so the endpoint always answers with a
schedule. -/
def basicEndpoint (subjects : List Subject) (daysUntil : ℕ) (hpd : ℤ)
    (ts : List String) : Except String TimetableResult :=
  match generatorRun subjects daysUntil hpd ts with
  | Except.ok t => Except.ok (TimetableResult.gen t)
  | Except.error _ =>
      Except.ok (TimetableResult.fb (fallbackTimetable subjects daysUntil hpd ts))

/-- main.py generate_enhanced_timetable (lines 75 to 203): an empty subject
list is rejected with status 400 before any generation; a failure of the
enhanced fallback generator itself (its except branch retries it and fails
again) surfaces as status 500; otherwise the enhanced timetable is
returned.  The endpoint pre-sorts the subjects by raw examDate string (line
92); the fallback generator re-annotates and re-sorts them itself, so that
pre-sort only permutes its input and is not modelled. -/
def enhancedEndpoint (subjects : List RawSubject) (hpd : ℤ)
    (ts : List String) : Except String EnhTimetable :=
  if subjects.isEmpty then Except.error "No subjects provided"
  else match enhancedFallbackRun subjects hpd ts with
    | Except.ok t => Except.ok t
    | Except.error _ => Except.error "Enhanced timetable generation failed"

/-- The reschedule response record (main.py lines 898 to 911).  The dict
built there carries no day schedules and no timetable content; the
dailySchedule field records that absence.  The id and created_at timestamp
are omitted. -/
structure RescheduleResult where
  remainingDays : ℤ
  completedTopics : List String
  aiRecommendations : String
  status : String
  suggestions : List String
  dailySchedule : Option (List DaySchedule)
deriving DecidableEq

/-- main.py reschedule_timetable (lines 890 to 921): builds a static
response from the request fields alone and echoes the completed count.  No
classifier, allocator, pool builder or packer is invoked. -/
def rescheduleEndpoint (completedTopics : List String) (remainingDays : ℤ) :
    RescheduleResult × ℕ :=
  (RescheduleResult.mk remainingDays completedTopics
    ("Great progress! You've completed " ++ toString completedTopics.length
      ++ " topics. Focus on the remaining high-priority topics and increase"
      ++ " daily study hours if possible.")
    "rescheduled"
    ["Review completed topics for retention",
     "Focus on high-priority remaining topics",
     "Consider increasing daily study hours",
     "Schedule regular review sessions"]
    none,
   completedTopics.length)

/-- The claim-relevant fields of TimetableGenerator.reschedule_timetable
(timetable_generator.py lines 178 to 229): both the LLM branch and its
fallback return remaining_days and completed_topics echoed, status
rescheduled, and no schedule content; the prose fields are omitted. -/
structure GenRescheduleResult where
  remainingDays : ℤ
  completedTopics : List String
  status : String
  dailySchedule : Option (List DaySchedule)
deriving DecidableEq

def generatorReschedule (completedTopics : List String) (remainingDays : ℤ) :
    GenRescheduleResult :=
  GenRescheduleResult.mk remainingDays completedTopics "rescheduled" none

-- ===================================================================
-- THEOREMS
-- ===================================================================

theorem pytrunc_eq_floor {q : ℚ} (h : 0 ≤ q) : pytrunc q = ⌊q⌋ := by
  rw [pytrunc, Rat.floor_def,
    Int.tdiv_eq_ediv (Rat.num_nonneg.mpr h) (by positivity)]

theorem div_coe_nat (m n : ℕ) : (m : ℤ) / (n : ℤ) = ((m / n : ℕ) : ℤ) := by
  exact_mod_cast rfl

theorem mod_coe_nat (m n : ℕ) : (m : ℤ) % (n : ℤ) = ((m % n : ℕ) : ℤ) := by
  exact_mod_cast rfl

theorem enum_map_fst' (l : List α) : l.enum.map Prod.fst = List.range l.length := by
  simp [List.enum_eq_zip_range, List.map_fst_zip]

/-- Sum of a constant plus an extra unit on the first r indices, over the
index range 0 .. n-1. -/
theorem range_sum_split (q r : ℤ) (hr : 0 ≤ r) : ∀ n : ℕ,
    (((List.range n).map (fun i : ℕ => q + if (i : ℤ) < r then 1 else 0)).sum)
      = n * q + min r n
  | 0 => by simpa using (min_eq_right hr).symm
  | (n + 1) => by
      rw [List.range_succ, List.map_append, List.sum_append, range_sum_split q r hr n]
      by_cases hn : (n : ℤ) < r
      · have h1 : min r (n : ℤ) = n := min_eq_right (le_of_lt hn)
        have h2 : min r ((n : ℤ) + 1) = (n : ℤ) + 1 := min_eq_right hn
        simp only [List.map_cons, List.map_nil, List.sum_cons, List.sum_nil, if_pos hn]
        push_cast
        rw [h1, h2]; ring
      · have h1 : min r (n : ℤ) = r := min_eq_left (not_lt.mp hn)
        have h2 : min r ((n : ℤ) + 1) = r :=
          min_eq_left (le_trans (not_lt.mp hn) (by linarith))
        simp only [List.map_cons, List.map_nil, List.sum_cons, List.sum_nil, if_neg hn]
        push_cast
        rw [h1, h2]; ring

/-- C1: in equal-split mode (no subject supplies weightage), with n >= 1
subjects and total hours H >= 0, the i-th subject is allocated
H / n + 1 extra hour exactly when i < H mod n, and the allocations sum to H
(timetable_generator.py lines 68 to 74). -/
theorem equal_split_allocation (subjects : List Subject) (H : ℕ)
    (hne : subjects ≠ [])
    (hmode : subjects.all (fun s => s.weightage.isEmpty) = true)
    (_hnames : (subjects.map Subject.name).Nodup) :
    (calculateSubjectHours subjects (H : ℤ)).length = subjects.length ∧
    (∀ i, i < subjects.length →
      (calculateSubjectHours subjects (H : ℤ)).getD i ("", 0)
        = ((subjects.getD i sdummy).name,
           ((H / subjects.length
              + if i < H % subjects.length then 1 else 0 : ℕ) : ℤ))) ∧
    ((calculateSubjectHours subjects (H : ℤ)).map Prod.snd).sum = (H : ℤ) := by
  have hn : 0 < subjects.length := List.length_pos.mpr hne
  simp only [calculateSubjectHours, hmode, if_true]
  refine ⟨by simp, ?_, ?_⟩
  · intro i hi
    have hi' : i < subjects.enum.length := by simpa using hi
    rw [List.getD_eq_getElem _ _ (by simpa using hi), List.getElem_map,
        List.getElem_enum, List.getD_eq_getElem _ _ hi,
        div_coe_nat, mod_coe_nat]
    by_cases hc : i < H % subjects.length
    · have hc' : (i : ℤ) < ((H % subjects.length : ℕ) : ℤ) := by exact_mod_cast hc
      simp only [if_pos hc, if_pos hc']
      push_cast
      rfl
    · have hc' : ¬ (i : ℤ) < ((H % subjects.length : ℕ) : ℤ) := by exact_mod_cast hc
      simp only [if_neg hc, if_neg hc']
      push_cast
      rfl
  · rw [List.map_map]
    have hcomp : (Prod.snd ∘ fun p : ℕ × Subject =>
        (p.2.name, (H : ℤ) / (subjects.length : ℤ)
          + if (p.1 : ℤ) < (H : ℤ) % (subjects.length : ℤ) then 1 else 0))
        = (fun i : ℕ => (H : ℤ) / (subjects.length : ℤ)
          + if (i : ℤ) < (H : ℤ) % (subjects.length : ℤ) then 1 else 0)
          ∘ Prod.fst := rfl
    rw [hcomp, ← List.map_map, enum_map_fst', div_coe_nat, mod_coe_nat]
    rw [range_sum_split _ _ (by exact_mod_cast Nat.zero_le _)]
    have hmlt : H % subjects.length < subjects.length := Nat.mod_lt _ hn
    rw [min_eq_left (by exact_mod_cast le_of_lt hmlt)]
    have hdm : subjects.length * (H / subjects.length) + H % subjects.length = H :=
      Nat.div_add_mod H subjects.length
    exact_mod_cast congrArg (fun k : ℕ => (k : ℤ)) hdm

theorem equal_split_allocation_witness :
    ([Subject.mk "A" ["t"] [], Subject.mk "B" ["u"] []] ≠ ([] : List Subject)) ∧
    ((calculateSubjectHours [Subject.mk "A" ["t"] [], Subject.mk "B" ["u"] []]
        (7 : ℕ)).map Prod.snd).sum = ((7 : ℕ) : ℤ) :=
  ⟨by decide,
   (equal_split_allocation [Subject.mk "A" ["t"] [], Subject.mk "B" ["u"] []] 7
     (by decide) (by decide) (by decide)).2.2⟩

/-- Strict sum comparison for a nonempty list with strictly smaller terms. -/
theorem list_sum_lt_of_lt {l : List α} (hl : l ≠ []) (f g : α → ℚ)
    (h : ∀ a ∈ l, f a < g a) : (l.map f).sum < (l.map g).sum := by
  cases l with
  | nil => exact absurd rfl hl
  | cons a t =>
      simp only [List.map_cons, List.sum_cons]
      have h1 : f a < g a := h a (List.mem_cons_self a t)
      have h2 : (t.map f).sum ≤ (t.map g).sum :=
        List.sum_le_sum (fun b hb => le_of_lt (h b (List.mem_cons_of_mem a hb)))
      exact add_lt_add_of_lt_of_le h1 h2

theorem int_list_sum_cast (l : List α) (f : α → ℤ) :
    (((l.map f).sum : ℤ) : ℚ) = (l.map (fun a => ((f a : ℤ) : ℚ))).sum := by
  induction l with
  | nil => simp
  | cons a t ih => push_cast [List.map_cons, List.sum_cons] at ih ⊢; rw [ih]

theorem list_sum_map_sub_one (l : List α) (f : α → ℚ) :
    (l.map (fun a => f a - 1)).sum = (l.map f).sum - l.length := by
  induction l with
  | nil => simp
  | cons a t ih =>
      simp only [List.map_cons, List.sum_cons, List.length_cons, ih]
      push_cast
      ring

theorem effWeight_nonneg {s : Subject} (hw : ∀ p ∈ s.weightage, 0 ≤ p.2) :
    0 ≤ effWeight s := by
  unfold effWeight
  split
  · exact zero_le_one
  · exact List.sum_nonneg (by
      intro x hx
      obtain ⟨p, hp, rfl⟩ := List.mem_map.mp hx
      exact hw p hp)

/-- C3: in weighted mode (some subject supplies weightage, spec invariant of
non-negative weights, positive total weight), each subject is allocated
the floor of (weight / total-weight) * total-hours, the allocations sum to at
most the total hours, and fall short of them by at most subject-count minus 1
(timetable_generator.py lines 75 to 90). -/
theorem weighted_allocation (subjects : List Subject) (H : ℕ)
    (hmode : subjects.all (fun s => s.weightage.isEmpty) = false)
    (hw : ∀ s ∈ subjects, ∀ p ∈ s.weightage, 0 ≤ p.2)
    (hW : 0 < totalWeight subjects) :
    (∀ i, i < subjects.length →
      (calculateSubjectHours subjects (H : ℤ)).getD i ("", 0)
        = ((subjects.getD i sdummy).name,
           ⌊effWeight (subjects.getD i sdummy) / totalWeight subjects * (H : ℤ)⌋)) ∧
    ((calculateSubjectHours subjects (H : ℤ)).map Prod.snd).sum ≤ (H : ℤ) ∧
    (H : ℤ) - ((calculateSubjectHours subjects (H : ℤ)).map Prod.snd).sum
      ≤ (subjects.length : ℤ) - 1 := by
  have hne : subjects ≠ [] := by
    intro h; rw [h] at hmode; simp [List.all_nil] at hmode
  have hWne : totalWeight subjects ≠ 0 := ne_of_gt hW
  -- the value computed for each subject, and its nonnegativity
  have hx : ∀ s ∈ subjects,
      pytrunc (effWeight s / totalWeight subjects * ((H : ℕ) : ℚ))
        = ⌊effWeight s / totalWeight subjects * ((H : ℕ) : ℚ)⌋ := by
    intro s hs
    exact pytrunc_eq_floor (by
      have h1 : 0 ≤ effWeight s := effWeight_nonneg (hw s hs)
      positivity)
  simp only [calculateSubjectHours, hmode, Bool.false_eq_true, if_false]
  have hcast : ∀ s : Subject,
      effWeight s / totalWeight subjects * ((H : ℤ) : ℚ)
        = effWeight s / totalWeight subjects * ((H : ℕ) : ℚ) := by
    intro s; norm_cast
  refine ⟨?_, ?_⟩
  · intro i hi
    rw [List.getD_eq_getElem _ _ (by simpa using hi), List.getElem_map,
        List.getD_eq_getElem _ _ hi]
    have hmem : subjects[i] ∈ subjects := List.getElem_mem hi
    rw [hcast, hx _ hmem]
  -- both sum bounds, via the rational value of the integer sum
  · have hsum :
        ((subjects.map (fun s =>
            effWeight s / totalWeight subjects * ((H : ℕ) : ℚ))).sum) = (H : ℚ) := by
      have hcongr : subjects.map (fun s =>
            effWeight s / totalWeight subjects * ((H : ℕ) : ℚ))
          = subjects.map (fun s =>
            effWeight s * (((H : ℕ) : ℚ) / totalWeight subjects)) := by
        apply List.map_congr_left
        intro s _
        field_simp
      rw [hcongr, List.sum_map_mul_right]
      show totalWeight subjects * _ = _
      field_simp
    have hmapped : (List.map Prod.snd (subjects.map (fun s =>
          (s.name, pytrunc (effWeight s / totalWeight subjects * ((H : ℤ) : ℚ))))))
        = subjects.map (fun s =>
            ⌊effWeight s / totalWeight subjects * ((H : ℕ) : ℚ)⌋) := by
      rw [List.map_map]
      apply List.map_congr_left
      intro s hs
      show pytrunc _ = _
      rw [hcast, hx _ hs]
    have hcastsum : (((subjects.map (fun s =>
          ⌊effWeight s / totalWeight subjects * ((H : ℕ) : ℚ)⌋)).sum : ℤ) : ℚ)
        = (subjects.map (fun s =>
          (⌊effWeight s / totalWeight subjects * ((H : ℕ) : ℚ)⌋ : ℚ))).sum :=
      int_list_sum_cast subjects _
    have hub : (((subjects.map (fun s =>
          ⌊effWeight s / totalWeight subjects * ((H : ℕ) : ℚ)⌋)).sum : ℤ) : ℚ)
        ≤ (H : ℚ) := by
      rw [hcastsum]
      calc (subjects.map (fun s =>
              (⌊effWeight s / totalWeight subjects * ((H : ℕ) : ℚ)⌋ : ℚ))).sum
          ≤ (subjects.map (fun s =>
              effWeight s / totalWeight subjects * ((H : ℕ) : ℚ))).sum :=
            List.sum_le_sum (fun s _ =>
              Int.floor_le (effWeight s / totalWeight subjects * ((H : ℕ) : ℚ)))
        _ = (H : ℚ) := hsum
    have hsub1 : ((subjects.map (fun s =>
          effWeight s / totalWeight subjects * ((H : ℕ) : ℚ) - 1)).sum)
        = (H : ℚ) - (subjects.length : ℚ) := by
      rw [list_sum_map_sub_one, hsum]
    have hlb : (H : ℚ) - (subjects.length : ℚ)
        < (((subjects.map (fun s =>
          ⌊effWeight s / totalWeight subjects * ((H : ℕ) : ℚ)⌋)).sum : ℤ) : ℚ) := by
      rw [hcastsum, ← hsub1]
      exact list_sum_lt_of_lt hne _ _ (fun s _ => by
        have := Int.sub_one_lt_floor
          (effWeight s / totalWeight subjects * ((H : ℕ) : ℚ))
        linarith)
    rw [hmapped]
    have hub' : ((subjects.map (fun s =>
          ⌊effWeight s / totalWeight subjects * ((H : ℕ) : ℚ)⌋)).sum) ≤ (H : ℤ) := by
      exact_mod_cast hub
    have hlb' : (H : ℤ) - (subjects.length : ℤ)
        < ((subjects.map (fun s =>
          ⌊effWeight s / totalWeight subjects * ((H : ℕ) : ℚ)⌋)).sum) := by
      exact_mod_cast hlb
    exact ⟨hub', by omega⟩

theorem weighted_allocation_witness :
    (0 < totalWeight [Subject.mk "Math" ["Algebra"] [("Algebra", 2)],
        Subject.mk "Physics" ["Mechanics"] [("Mechanics", 1)]]) ∧
    ((calculateSubjectHours [Subject.mk "Math" ["Algebra"] [("Algebra", 2)],
        Subject.mk "Physics" ["Mechanics"] [("Mechanics", 1)]]
        ((30 : ℕ) : ℤ)).map Prod.snd).sum ≤ ((30 : ℕ) : ℤ) :=
  ⟨by norm_num [totalWeight, effWeight],
   (weighted_allocation [Subject.mk "Math" ["Algebra"] [("Algebra", 2)],
      Subject.mk "Physics" ["Mechanics"] [("Mechanics", 1)]] 30
     (by decide) (by decide) (by norm_num [totalWeight, effWeight])).2.1⟩

theorem mem_insSorted (le : α → α → Bool) (a x : α) :
    ∀ l : List α, x ∈ insSorted le a l ↔ x = a ∨ x ∈ l
  | [] => by simp [insSorted]
  | b :: bs => by
      simp only [insSorted]
      split
      · simp [List.mem_cons]
      · rw [List.mem_cons, mem_insSorted le a x bs]
        simp [List.mem_cons]
        tauto

theorem mem_sortBy (le : α → α → Bool) (x : α) :
    ∀ l : List α, x ∈ sortBy le l ↔ x ∈ l
  | [] => Iff.rfl
  | a :: as => by
      simp only [sortBy, mem_insSorted, mem_sortBy le x as, List.mem_cons]

theorem foldl_min_spec (xs : List ℤ) : ∀ a : ℤ,
    (xs.foldl min a = a ∨ xs.foldl min a ∈ xs) ∧
    xs.foldl min a ≤ a ∧ (∀ x ∈ xs, xs.foldl min a ≤ x) := by
  induction xs with
  | nil => intro a; simp
  | cons b bs ih =>
      intro a
      obtain ⟨hmem, hle, hall⟩ := ih (min a b)
      refine ⟨?_, ?_, ?_⟩
      · rcases hmem with h | h
        · rcases le_total a b with hab | hba
          · left; rw [List.foldl_cons, h, min_eq_left hab]
          · right; rw [List.foldl_cons, h, min_eq_right hba]
            exact List.mem_cons_self b bs
        · right; exact List.mem_cons_of_mem b h
      · exact le_trans hle (min_le_left a b)
      · intro x hx
        rcases List.mem_cons.mp hx with rfl | hx'
        · exact le_trans hle (min_le_right a x)
        · exact hall x hx'

theorem listMin_spec (l : List ℤ) (dflt : ℤ) (hl : l ≠ []) :
    listMin l dflt ∈ l ∧ ∀ x ∈ l, listMin l dflt ≤ x := by
  cases l with
  | nil => exact absurd rfl hl
  | cons a xs =>
      obtain ⟨hmem, hle, hall⟩ := foldl_min_spec xs a
      refine ⟨?_, ?_⟩
      · rcases hmem with h | h
        · rw [listMin, h]; exact List.mem_cons_self a xs
        · exact List.mem_cons_of_mem a h
      · intro x hx
        rcases List.mem_cons.mp hx with rfl | hx'
        · exact hle
        · exact hall x hx'

theorem priorityMultiplier_pos (p : ℕ) : 0 < priorityMultiplier p := by
  unfold priorityMultiplier
  split_ifs <;> norm_num

/-- C4: the Priority Classifier tags every subject: a parsed exam date d days
away yields days-remaining d with tier 1 when d <= 7, 2 when d <= 14, 3
otherwise; an absent or unparseable date yields 30 days and tier 3; the
string tiers of the analysis loop agree with the numeric tiers; and the run
aborts only for the two division-by-zero conditions, never because of a
missing or malformed date (main.py lines 141 to 154 and 212 to 230). -/
theorem priority_classifier_spec (subjects : List RawSubject) (hpd : ℤ)
    (ts : List String) :
    List.Forall₂ (fun (s : RawSubject) (a : ASubject) =>
        a.name = s.name ∧ a.topics = s.topics ∧
        a.estimatedHours = s.estimatedHours.getD 20 ∧
        a.daysUntil = (match s.examParse with
          | some (some d) => d
          | _ => 30) ∧
        a.priority = (match s.examParse with
          | some (some d) => if d ≤ 7 then 1 else if d ≤ 14 then 2 else 3
          | _ => 3)) subjects (annotate subjects) ∧
    (∀ d : ℤ, priorityLabelOfDays d
        = (if (classify (some (some d))).2 = 1 then "High"
           else if (classify (some (some d))).2 = 2 then "Medium" else "Low")) ∧
    (enhancedFallbackRun subjects hpd ts = Except.error ()
      ↔ ((subjects ≠ [] ∧ totalEstimated (annotate subjects) = 0)
          ∨ subjects.any (fun s => s.topics = some []) = true)) := by
  refine ⟨?_, ?_, ?_⟩
  · rw [annotate, List.forall₂_map_right_iff, List.forall₂_same]
    intro s _
    refine ⟨rfl, rfl, rfl, ?_, ?_⟩ <;>
      rcases s.examParse with _ | op <;> first
        | rfl
        | (rcases op with _ | d <;> simp [classify])
  · intro d
    by_cases h7 : d ≤ 7
    · simp [priorityLabelOfDays, classify, h7]
    · by_cases h14 : d ≤ 14 <;> simp [priorityLabelOfDays, classify, h7, h14]
  · unfold enhancedFallbackRun
    split_ifs with h1 h2
    · simp [h1]
    · simp [h1, h2]
    · simp [h1, h2]

theorem packAll_length (ts : List String) (hpd : ℤ) (high : List ASubject) :
    ∀ n dayIdx pool, (packAll ts hpd high n dayIdx pool).length = n
  | 0, _, _ => rfl
  | n + 1, dayIdx, pool => by
      simp only [packAll, List.length_cons]
      rw [packAll_length ts hpd high n]

theorem filter_map_mem_sortBy (le : ASubject → ASubject → Bool)
    (l : List ASubject) (x : ℤ) :
    x ∈ ((sortBy le l).map ASubject.daysUntil).filter (fun d => 0 < d)
      ↔ x ∈ (l.map ASubject.daysUntil).filter (fun d => 0 < d) := by
  simp only [List.mem_filter, List.mem_map]
  constructor <;> rintro ⟨⟨a, ha, rfl⟩, hpos⟩
  · exact ⟨⟨a, (mem_sortBy le a l).mp ha, rfl⟩, hpos⟩
  · exact ⟨⟨a, (mem_sortBy le a l).mpr ha, rfl⟩, hpos⟩

/-- C10: on the enhanced path the horizon is max(7, min(d, 60)) where d is
the least strictly positive days-until-exam (30 when none is positive), the
timetable has exactly that many day schedules, and the day count always lies
between 7 and 60 (main.py lines 235 to 240 and 290). -/
theorem enhanced_horizon (subjects : List RawSubject) (hpd : ℤ)
    (ts : List String) (t : EnhTimetable)
    (h : enhancedFallbackRun subjects hpd ts = Except.ok t) :
    t.totalDays = max 7 (min (minDays (sortedSubjects subjects)) 60) ∧
    7 ≤ t.totalDays ∧ t.totalDays ≤ 60 ∧
    (t.dailySchedule.length : ℤ) = t.totalDays ∧
    ((((annotate subjects).map ASubject.daysUntil).filter (fun d => 0 < d)) = []
       → t.totalDays = 30) ∧
    ((((annotate subjects).map ASubject.daysUntil).filter (fun d => 0 < d)) ≠ []
       → ∃ d ∈ ((annotate subjects).map ASubject.daysUntil).filter (fun d => 0 < d),
           (∀ x ∈ ((annotate subjects).map ASubject.daysUntil).filter
               (fun d => 0 < d), d ≤ x) ∧
           t.totalDays = max 7 (min d 60)) := by
  have ht : t = enhancedFallback subjects hpd ts := by
    unfold enhancedFallbackRun at h
    split_ifs at h
    exact (Except.ok.injEq _ _).mp h.symm
  subst ht
  have htd : (enhancedFallback subjects hpd ts).totalDays
      = enhTotalDays (sortedSubjects subjects) := rfl
  have h7 : 7 ≤ enhTotalDays (sortedSubjects subjects) := le_max_left _ _
  have h60 : enhTotalDays (sortedSubjects subjects) ≤ 60 :=
    max_le (by norm_num) (min_le_right _ _)
  refine ⟨rfl, h7, h60, ?_, ?_, ?_⟩
  · show ((packAll ts hpd _ (enhTotalDays (sortedSubjects subjects)).toNat 0 _).length : ℤ) = _
    rw [packAll_length]
    exact Int.toNat_of_nonneg (le_trans (by norm_num) h7)
  · intro hnil
    have : ((sortedSubjects subjects).map ASubject.daysUntil).filter
        (fun d => 0 < d) = [] := by
      rcases hh : ((sortedSubjects subjects).map ASubject.daysUntil).filter
          (fun d => 0 < d) with _ | ⟨a, rest⟩
      · exact hh
      · exfalso
        have : a ∈ ((sortedSubjects subjects).map ASubject.daysUntil).filter
            (fun d => 0 < d) := by rw [hh]; exact List.mem_cons_self a rest
        rw [sortedSubjects, filter_map_mem_sortBy, hnil] at this
        exact absurd this (List.not_mem_nil a)
    show enhTotalDays (sortedSubjects subjects) = 30
    rw [enhTotalDays, minDays, this]
    rfl
  · intro hne
    have hne' : ((sortedSubjects subjects).map ASubject.daysUntil).filter
        (fun d => 0 < d) ≠ [] := by
      rcases hh : ((annotate subjects).map ASubject.daysUntil).filter
          (fun d => 0 < d) with _ | ⟨a, rest⟩
      · exact absurd hh hne
      · have ha : a ∈ ((sortedSubjects subjects).map ASubject.daysUntil).filter
            (fun d => 0 < d) := by
          rw [sortedSubjects, filter_map_mem_sortBy, hh]
          exact List.mem_cons_self a rest
        exact List.ne_nil_of_mem ha
    obtain ⟨hmem, hall⟩ := listMin_spec _ 30 hne'
    refine ⟨minDays (sortedSubjects subjects), ?_, ?_, rfl⟩
    · rw [← filter_map_mem_sortBy subjLe (annotate subjects)]
      exact hmem
    · intro x hx
      exact hall x (by rw [sortedSubjects, filter_map_mem_sortBy]; exact hx)

theorem enhanced_horizon_witness :
    (enhancedFallbackRun [RawSubject.mk "Math" (some ["Algebra", "Calculus"])
        (some (some 7)) none] 4 []
      = Except.ok (enhancedFallback [RawSubject.mk "Math"
        (some ["Algebra", "Calculus"]) (some (some 7)) none] 4 [])) ∧
    7 ≤ (enhancedFallback [RawSubject.mk "Math" (some ["Algebra", "Calculus"])
        (some (some 7)) none] 4 []).totalDays :=
  ⟨by rfl,
   (enhanced_horizon [RawSubject.mk "Math" (some ["Algebra", "Calculus"])
      (some (some 7)) none] 4 [] _ (by rfl)).2.1⟩

/-- C9: on the enhanced path each subject is allocated
min(estimated, floor(share * total-hours * multiplier)) with multiplier
3/2, 6/5, 1 for tiers 1, 2, 3, and never more than its own estimate
(main.py lines 255 to 267). -/
theorem enhanced_allocation (subjects : List RawSubject) (hpd : ℤ)
    (hhpd : 0 ≤ hpd)
    (hest : ∀ s ∈ sortedSubjects subjects, 0 ≤ s.estimatedHours)
    (htot : 0 < totalEstimated (sortedSubjects subjects)) :
    (priorityMultiplier 1 = 3 / 2 ∧ priorityMultiplier 2 = 6 / 5
      ∧ priorityMultiplier 3 = 1) ∧
    ∀ s ∈ sortedSubjects subjects,
      enhancedAlloc (sortedSubjects subjects)
          (enhTotalDays (sortedSubjects subjects) * hpd) s
        = min s.estimatedHours
            ⌊(s.estimatedHours : ℚ) / (totalEstimated (sortedSubjects subjects) : ℚ)
              * ((enhTotalDays (sortedSubjects subjects) * hpd : ℤ) : ℚ)
              * priorityMultiplier s.priority⌋ ∧
      enhancedAlloc (sortedSubjects subjects)
          (enhTotalDays (sortedSubjects subjects) * hpd) s ≤ s.estimatedHours := by
  refine ⟨⟨by norm_num [priorityMultiplier], by norm_num [priorityMultiplier],
    by norm_num [priorityMultiplier]⟩, ?_⟩
  intro s hs
  have hH : (0 : ℤ) ≤ enhTotalDays (sortedSubjects subjects) * hpd :=
    mul_nonneg (le_trans (by norm_num) (le_max_left 7 _)) hhpd
  have hxpos : 0 ≤ (s.estimatedHours : ℚ)
      / (totalEstimated (sortedSubjects subjects) : ℚ)
      * ((enhTotalDays (sortedSubjects subjects) * hpd : ℤ) : ℚ)
      * priorityMultiplier s.priority := by
    have h1 : (0 : ℚ) ≤ (s.estimatedHours : ℚ) := by exact_mod_cast hest s hs
    have h2 : (0 : ℚ) < (totalEstimated (sortedSubjects subjects) : ℚ) := by
      exact_mod_cast htot
    have h3 : (0 : ℚ) ≤ ((enhTotalDays (sortedSubjects subjects) * hpd : ℤ) : ℚ) := by
      exact_mod_cast hH
    have h4 := priorityMultiplier_pos s.priority
    positivity
  constructor
  · rw [enhancedAlloc, pytrunc_eq_floor hxpos, min_comm]
  · exact min_le_right _ _

theorem enhanced_allocation_witness :
    (0 ≤ (4 : ℤ)) ∧
    enhancedAlloc (sortedSubjects [RawSubject.mk "Math"
        (some ["Algebra", "Calculus"]) (some (some 7)) none])
      (enhTotalDays (sortedSubjects [RawSubject.mk "Math"
        (some ["Algebra", "Calculus"]) (some (some 7)) none]) * 4)
      (ASubject.mk "Math" (some ["Algebra", "Calculus"]) 20 7 1)
      ≤ (ASubject.mk "Math" (some ["Algebra", "Calculus"]) 20 7 1).estimatedHours :=
  ⟨by norm_num,
   ((enhanced_allocation [RawSubject.mk "Math" (some ["Algebra", "Calculus"])
      (some (some 7)) none] 4 (by norm_num) (by decide) (by decide)).2
     (ASubject.mk "Math" (some ["Algebra", "Calculus"]) 20 7 1) (by decide)).2⟩

/-- Focus-pass invariants: the returned count is the old count plus the
emitted sessions, at most slots sessions are emitted, and the j-th emitted
session has a positive duration of at most 2 hours and the slot of session
index sc + j. -/
theorem runFocus_spec (ts : List String) (dayIdx : ℕ) (f : String) :
    ∀ (pool : List TopicUnit) (slots : ℕ) (avail : ℤ) (sc : ℕ),
    (runFocus ts dayIdx f slots avail sc pool).2.2.1
        = sc + (runFocus ts dayIdx f slots avail sc pool).1.length ∧
    (runFocus ts dayIdx f slots avail sc pool).1.length ≤ slots ∧
    (∀ j, j < (runFocus ts dayIdx f slots avail sc pool).1.length →
      0 < ((runFocus ts dayIdx f slots avail sc pool).1.getD j sessDummy).duration ∧
      ((runFocus ts dayIdx f slots avail sc pool).1.getD j sessDummy).duration ≤ 2 ∧
      ((runFocus ts dayIdx f slots avail sc pool).1.getD j sessDummy).timeSlot
        = enhSlot ts (sc + j))
  | [], slots, avail, sc => by simp [runFocus]
  | u :: rest, slots, avail, sc => by
      by_cases hm : (u.subject = f ∧ 0 < u.hoursNeeded)
      · cases slots with
        | zero => simp [runFocus, hm]
        | succ slots' =>
            by_cases ha : avail ≤ 0
            · simp [runFocus, hm, ha]
            · have h0 : (0 : ℤ) < min 2 (min avail u.hoursNeeded) :=
                lt_min (by norm_num) (lt_min (by omega) hm.2)
              have h2 : min 2 (min avail u.hoursNeeded) ≤ 2 := min_le_left _ _
              obtain ⟨ihc, ihl, ihj⟩ := runFocus_spec ts dayIdx f rest slots'
                (avail - min 2 (min avail u.hoursNeeded)) (sc + 1)
              simp only [runFocus, if_pos hm, if_neg ha]
              refine ⟨?_, ?_, ?_⟩
              · simp only [List.length_cons, ihc]; omega
              · simp only [List.length_cons]; omega
              · intro j hj
                cases j with
                | zero =>
                    refine ⟨h0, h2, ?_⟩
                    simp
                | succ j' =>
                    simp only [List.length_cons] at hj
                    obtain ⟨p1, p2, p3⟩ := ihj j' (by omega)
                    simp only [List.getD_cons_succ]
                    refine ⟨p1, p2, ?_⟩
                    rw [p3]
                    congr 1
                    omega
      · obtain ⟨ihc, ihl, ihj⟩ := runFocus_spec ts dayIdx f rest slots avail sc
        simp only [runFocus, if_neg hm]
        exact ⟨ihc, ihl, ihj⟩

/-- General-pass invariants: count bookkeeping, the four-session day cap,
and per-session duration and slot facts. -/
theorem runGeneral_spec (ts : List String) (dayIdx : ℕ) :
    ∀ (pool : List TopicUnit) (avail : ℤ) (sc : ℕ),
    (runGeneral ts dayIdx avail sc pool).2.2.1
        = sc + (runGeneral ts dayIdx avail sc pool).1.length ∧
    sc + (runGeneral ts dayIdx avail sc pool).1.length ≤ max sc 4 ∧
    (∀ j, j < (runGeneral ts dayIdx avail sc pool).1.length →
      0 < ((runGeneral ts dayIdx avail sc pool).1.getD j sessDummy).duration ∧
      ((runGeneral ts dayIdx avail sc pool).1.getD j sessDummy).duration ≤ 2 ∧
      ((runGeneral ts dayIdx avail sc pool).1.getD j sessDummy).timeSlot
        = enhSlot ts (sc + j))
  | [], avail, sc => by simp [runGeneral]
  | u :: rest, avail, sc => by
      by_cases hm : 0 < u.hoursNeeded
      · by_cases hstop : avail ≤ 0 ∨ 4 ≤ sc
        · simp [runGeneral, hm, hstop]
        · push_neg at hstop
          have h0 : (0 : ℤ) < min 2 (min avail u.hoursNeeded) :=
            lt_min (by norm_num) (lt_min (by omega) hm)
          have h2 : min 2 (min avail u.hoursNeeded) ≤ 2 := min_le_left _ _
          obtain ⟨ihc, ihl, ihj⟩ := runGeneral_spec ts dayIdx rest
            (avail - min 2 (min avail u.hoursNeeded)) (sc + 1)
          simp only [runGeneral, if_pos hm,
            if_neg (by push_neg; exact hstop : ¬ (avail ≤ 0 ∨ 4 ≤ sc))]
          refine ⟨?_, ?_, ?_⟩
          · simp only [List.length_cons, ihc]; omega
          · simp only [List.length_cons]; omega
          · intro j hj
            cases j with
            | zero =>
                refine ⟨h0, h2, ?_⟩
                simp
            | succ j' =>
                simp only [List.length_cons] at hj
                obtain ⟨p1, p2, p3⟩ := ihj j' (by omega)
                simp only [List.getD_cons_succ]
                refine ⟨p1, p2, ?_⟩
                rw [p3]
                congr 1
                omega
      · obtain ⟨ihc, ihl, ihj⟩ := runGeneral_spec ts dayIdx rest avail sc
        simp only [runGeneral, if_neg hm]
        exact ⟨ihc, ihl, ihj⟩

/-- Day invariants of the enhanced packer: at most four sessions, every
session positive and at most two hours, and the j-th session of the day
carries the slot of index j. -/
theorem packDay_spec (ts : List String) (hpd : ℤ) (high : List ASubject)
    (dayIdx : ℕ) (pool : List TopicUnit) :
    (packDay ts hpd high dayIdx pool).1.sessions.length ≤ 4 ∧
    (∀ j, j < (packDay ts hpd high dayIdx pool).1.sessions.length →
      0 < ((packDay ts hpd high dayIdx pool).1.sessions.getD j sessDummy).duration ∧
      ((packDay ts hpd high dayIdx pool).1.sessions.getD j sessDummy).duration ≤ 2 ∧
      ((packDay ts hpd high dayIdx pool).1.sessions.getD j sessDummy).timeSlot
        = enhSlot ts j) := by
  rw [packDay]
  cases hf : focusOf high dayIdx with
  | none =>
      obtain ⟨ihc, ihl, ihj⟩ := runGeneral_spec ts dayIdx pool hpd 0
      simp only [max_eq_right (by norm_num : (0 : ℕ) ≤ 4), Nat.zero_add] at ihl
      refine ⟨ihl, ?_⟩
      intro j hj
      obtain ⟨p1, p2, p3⟩ := ihj j hj
      exact ⟨p1, p2, by rw [p3, Nat.zero_add]⟩
  | some f =>
      obtain ⟨fc, fl, fj⟩ := runFocus_spec ts dayIdx f pool 2 hpd 0
      obtain ⟨gc, gl, gj⟩ := runGeneral_spec ts dayIdx
        (runFocus ts dayIdx f 2 hpd 0 pool).2.2.2
        (runFocus ts dayIdx f 2 hpd 0 pool).2.1
        (runFocus ts dayIdx f 2 hpd 0 pool).2.2.1
      simp only [Nat.zero_add] at fc fl fj
      rw [max_eq_right (by omega :
        (runFocus ts dayIdx f 2 hpd 0 pool).2.2.1 ≤ 4)] at gl
      constructor
      · simp only [List.length_append]
        omega
      · intro j hj
        simp only [List.length_append] at hj
        by_cases hlt : j < (runFocus ts dayIdx f 2 hpd 0 pool).1.length
        · obtain ⟨p1, p2, p3⟩ := fj j hlt
          rw [List.getD_eq_getElem _ _ (by simp only [List.length_append]; omega),
            List.getElem_append_left hlt,
            ← List.getD_eq_getElem _ sessDummy hlt]
          exact ⟨p1, p2, p3⟩
        · have hj2 : j - (runFocus ts dayIdx f 2 hpd 0 pool).1.length
              < (runGeneral ts dayIdx
                  (runFocus ts dayIdx f 2 hpd 0 pool).2.1
                  ((runFocus ts dayIdx f 2 hpd 0 pool).2.2.1)
                  (runFocus ts dayIdx f 2 hpd 0 pool).2.2.2).1.length := by
            omega
          obtain ⟨p1, p2, p3⟩ := gj _ hj2
          rw [List.getD_eq_getElem _ _ (by simp only [List.length_append]; omega),
            List.getElem_append_right (by omega :
              (runFocus ts dayIdx f 2 hpd 0 pool).1.length ≤ j),
            ← List.getD_eq_getElem _ sessDummy hj2]
          refine ⟨p1, p2, ?_⟩
          rw [p3]
          congr 1
          omega

/-- Whole-run invariants of the enhanced packer: every day of the schedule
has at most four sessions, each of positive duration at most 2, and the j-th
session of each day carries the slot of index j. -/
theorem packAll_spec (ts : List String) (hpd : ℤ) (high : List ASubject) :
    ∀ (n dayIdx : ℕ) (pool : List TopicUnit),
    ∀ day ∈ packAll ts hpd high n dayIdx pool,
      day.sessions.length ≤ 4 ∧
      (∀ j, j < day.sessions.length →
        0 < (day.sessions.getD j sessDummy).duration ∧
        (day.sessions.getD j sessDummy).duration ≤ 2 ∧
        (day.sessions.getD j sessDummy).timeSlot = enhSlot ts j)
  | 0, _, _ => by simp [packAll]
  | n + 1, dayIdx, pool => by
      intro day hday
      simp only [packAll, List.mem_cons] at hday
      rcases hday with rfl | hday
      · exact packDay_spec ts hpd high dayIdx pool
      · exact packAll_spec ts hpd high n (dayIdx + 1)
          (packDay ts hpd high dayIdx pool).2 day hday

theorem updateUncompleted_preserves (f : BTopic → BTopic)
    (hf : ∀ t : BTopic, (f t).completed = false → 1 ≤ (f t).estimatedHours) :
    ∀ (pool : List BTopic) (j : ℕ),
      (∀ t ∈ pool, t.completed = false → 1 ≤ t.estimatedHours) →
      ∀ t ∈ updateUncompleted j f pool, t.completed = false → 1 ≤ t.estimatedHours
  | [], j => by simp [updateUncompleted]
  | t :: rest, j => by
      intro hp
      have hhead := hp t (List.mem_cons_self t rest)
      have htail := fun a ha => hp a (List.mem_cons_of_mem t ha)
      by_cases hc : t.completed = true
      · simp only [updateUncompleted, if_pos hc]
        intro a ha
        rcases List.mem_cons.mp ha with rfl | ha'
        · exact hhead
        · exact updateUncompleted_preserves f hf rest j htail a ha'
      · simp only [updateUncompleted, if_neg hc]
        cases j with
        | zero =>
            intro a ha
            rcases List.mem_cons.mp ha with rfl | ha'
            · exact hf t
            · exact htail a ha'
        | succ j' =>
            intro a ha
            rcases List.mem_cons.mp ha with rfl | ha'
            · exact hhead
            · exact updateUncompleted_preserves f hf rest j' htail a ha'

/-- Generator day-loop invariants: at most fuel sessions are emitted, the
j-th session has a positive duration of at most 2 and the slot of session
index sc + j with its own duration, and the updated pool keeps every
uncompleted unit at one hour or more. -/
theorem bLoop_spec (ts : List String) (dayIdx : ℕ) :
    ∀ (fuel : ℕ) (avail : ℤ) (sc : ℕ) (pool : List BTopic),
      (∀ t ∈ pool, t.completed = false → 1 ≤ t.estimatedHours) →
      (bLoop ts dayIdx fuel avail sc pool).1.length ≤ fuel ∧
      (∀ j, j < (bLoop ts dayIdx fuel avail sc pool).1.length →
        0 < ((bLoop ts dayIdx fuel avail sc pool).1.getD j sessDummy).duration ∧
        ((bLoop ts dayIdx fuel avail sc pool).1.getD j sessDummy).duration ≤ 2 ∧
        ((bLoop ts dayIdx fuel avail sc pool).1.getD j sessDummy).timeSlot
          = genSlot ts (sc + j)
              ((bLoop ts dayIdx fuel avail sc pool).1.getD j sessDummy).duration) ∧
      (∀ t ∈ (bLoop ts dayIdx fuel avail sc pool).2,
        t.completed = false → 1 ≤ t.estimatedHours)
  | 0, avail, sc, pool => by
      intro hp
      exact ⟨by simp [bLoop], by simp [bLoop], hp⟩
  | fuel + 1, avail, sc, pool => by
      intro hp
      by_cases ha : avail ≤ 0
      · have heq : bLoop ts dayIdx (fuel + 1) avail sc pool = ([], pool) := by
          simp [bLoop, ha]
        rw [heq]
        exact ⟨by simp, by simp, hp⟩
      · by_cases hpe : pool.isEmpty
        · have heq : bLoop ts dayIdx (fuel + 1) avail sc pool = ([], pool) := by
            simp [bLoop, ha, hpe]
          rw [heq]
          exact ⟨by simp, by simp, hp⟩
        · by_cases hue : (pool.filter (fun t => !t.completed)).isEmpty
          · have heq : bLoop ts dayIdx (fuel + 1) avail sc pool = ([], pool) := by
              simp [bLoop, ha, hpe, hue]
            rw [heq]
            exact ⟨by simp, by simp, hp⟩
          · have hul : 0 < (pool.filter (fun t => !t.completed)).length :=
              List.length_pos.mpr (fun hnil => hue (by rw [hnil]; rfl))
            have hidx : sc % (pool.filter (fun t => !t.completed)).length
                < (pool.filter (fun t => !t.completed)).length :=
              Nat.mod_lt _ hul
            have humem : (pool.filter (fun t => !t.completed)).getD
                (sc % (pool.filter (fun t => !t.completed)).length) btDummy
                ∈ pool.filter (fun t => !t.completed) := by
              rw [List.getD_eq_getElem _ _ hidx]
              exact List.getElem_mem hidx
            obtain ⟨humem', hunc⟩ := List.mem_filter.mp humem
            have hu1 : 1 ≤ ((pool.filter (fun t => !t.completed)).getD
                (sc % (pool.filter (fun t => !t.completed)).length)
                btDummy).estimatedHours :=
              hp _ humem' (by simpa using hunc)
            have h0 : (0 : ℤ) < min avail (min 2
                (((pool.filter (fun t => !t.completed)).getD
                  (sc % (pool.filter (fun t => !t.completed)).length)
                  btDummy).estimatedHours)) :=
              lt_min (by omega) (lt_min (by norm_num) (by omega))
            have h2 : min avail (min 2
                (((pool.filter (fun t => !t.completed)).getD
                  (sc % (pool.filter (fun t => !t.completed)).length)
                  btDummy).estimatedHours)) ≤ 2 :=
              le_trans (min_le_right _ _) (min_le_left _ _)
            have hp' : ∀ t ∈ updateUncompleted
                (sc % (pool.filter (fun t => !t.completed)).length)
                (fun t => BTopic.mk t.subject t.topic
                  (t.estimatedHours - min avail (min 2
                    (((pool.filter (fun t => !t.completed)).getD
                      (sc % (pool.filter (fun t => !t.completed)).length)
                      btDummy).estimatedHours)))
                  (decide (t.estimatedHours - min avail (min 2
                    (((pool.filter (fun t => !t.completed)).getD
                      (sc % (pool.filter (fun t => !t.completed)).length)
                      btDummy).estimatedHours)) ≤ 0))) pool,
                t.completed = false → 1 ≤ t.estimatedHours := by
              apply updateUncompleted_preserves _ _ _ _ hp
              intro t ht
              dsimp only at ht ⊢
              rw [decide_eq_false_iff_not] at ht
              omega
            obtain ⟨ihl, ihj, ihp⟩ := bLoop_spec ts dayIdx fuel
              (avail - min avail (min 2
                (((pool.filter (fun t => !t.completed)).getD
                  (sc % (pool.filter (fun t => !t.completed)).length)
                  btDummy).estimatedHours)))
              (sc + 1) _ hp'
            simp only [bLoop, if_neg ha, if_neg hpe, if_neg hue]
            refine ⟨?_, ?_, ihp⟩
            · simp only [List.length_cons]; omega
            · intro j hj
              cases j with
              | zero => exact ⟨h0, h2, by simp⟩
              | succ j' =>
                  simp only [List.length_cons] at hj
                  obtain ⟨p1, p2, p3⟩ := ihj j' (by omega)
                  simp only [List.getD_cons_succ]
                  refine ⟨p1, p2, ?_⟩
                  rw [p3]
                  congr 1
                  omega

/-- Generator day invariants over the whole horizon. -/
theorem bDays_spec (ts : List String) (hpd : ℤ) :
    ∀ (n dayIdx : ℕ) (pool : List BTopic),
      (∀ t ∈ pool, t.completed = false → 1 ≤ t.estimatedHours) →
      ∀ day ∈ bDays ts hpd n dayIdx pool,
        day.sessions.length ≤ 4 ∧
        (∀ j, j < day.sessions.length →
          0 < (day.sessions.getD j sessDummy).duration ∧
          (day.sessions.getD j sessDummy).duration ≤ 2 ∧
          (day.sessions.getD j sessDummy).timeSlot
            = genSlot ts j ((day.sessions.getD j sessDummy).duration))
  | 0, _, _ => by simp [bDays]
  | n + 1, dayIdx, pool => by
      intro hp day hday
      obtain ⟨hl, hj, hpool⟩ := bLoop_spec ts dayIdx 4 hpd 0 pool hp
      simp only [bDays, List.mem_cons] at hday
      rcases hday with rfl | hday
      · refine ⟨hl, ?_⟩
        intro j hjlt
        obtain ⟨p1, p2, p3⟩ := hj j hjlt
        exact ⟨p1, p2, by rw [p3, Nat.zero_add]⟩
      · exact bDays_spec ts hpd n (dayIdx + 1) _ hpool day hday

theorem bTopicPool_good (subjects : List Subject) (sh : List (String × ℤ)) :
    ∀ t ∈ bTopicPool subjects sh, t.completed = false → 1 ≤ t.estimatedHours := by
  intro t ht
  simp only [bTopicPool, List.mem_flatten, List.mem_map] at ht
  obtain ⟨l, ⟨s, _, rfl⟩, hl⟩ := ht
  obtain ⟨tp, _, rfl⟩ := List.mem_map.mp hl
  intro _
  exact le_max_left 1 _

theorem fbRun_stuck (ts : List String) (pool : List FbTopic) (dayIdx : ℕ) :
    ∀ (k sess idx : ℕ), ¬ (¬ pool.isEmpty ∧ idx < pool.length) →
      (fbRun ts pool dayIdx k sess idx).1 = []
        ∧ (fbRun ts pool dayIdx k sess idx).2 = idx
  | 0, sess, idx => by intro h; simp [fbRun]
  | k + 1, sess, idx => by
      intro h
      obtain ⟨h1, h2⟩ := fbRun_stuck ts pool dayIdx k (sess + 1) idx h
      simp only [fbRun, if_neg h]
      exact ⟨h1, h2⟩

/-- Fallback day-loop invariants: at most k sessions, each of exactly two
hours, the j-th carrying the slot of session index sess + j. -/
theorem fbRun_spec (ts : List String) (pool : List FbTopic) (dayIdx : ℕ) :
    ∀ (k sess idx : ℕ),
      (fbRun ts pool dayIdx k sess idx).1.length ≤ k ∧
      (∀ j, j < (fbRun ts pool dayIdx k sess idx).1.length →
        ((fbRun ts pool dayIdx k sess idx).1.getD j sessDummy).duration = 2 ∧
        ((fbRun ts pool dayIdx k sess idx).1.getD j sessDummy).timeSlot
          = (if sess + j < ts.length then ts.getD (sess + j) ""
             else mkSlot2 (sess + j)))
  | 0, sess, idx => by simp [fbRun]
  | k + 1, sess, idx => by
      by_cases hc : (¬ pool.isEmpty ∧ idx < pool.length)
      · obtain ⟨ihl, ihj⟩ := fbRun_spec ts pool dayIdx k (sess + 1) (idx + 1)
        simp only [fbRun, if_pos hc]
        refine ⟨?_, ?_⟩
        · simp only [List.length_cons]; omega
        · intro j hj
          cases j with
          | zero => exact ⟨rfl, by simp⟩
          | succ j' =>
              simp only [List.length_cons] at hj
              obtain ⟨p1, p2⟩ := ihj j' (by omega)
              simp only [List.getD_cons_succ]
              refine ⟨p1, ?_⟩
              rw [p2]
              have : sess + 1 + j' = sess + (j' + 1) := by omega
              rw [this]
      · obtain ⟨h1, _⟩ := fbRun_stuck ts pool dayIdx (k + 1) sess idx hc
        rw [h1]
        simp

/-- Fallback day invariants over the whole horizon. -/
theorem fbDays_spec (ts : List String) (pool : List FbTopic) (spd : ℕ) :
    ∀ (n dayIdx idx : ℕ),
      ∀ day ∈ fbDays ts pool spd n dayIdx idx,
        day.sessions.length ≤ spd ∧
        (∀ j, j < day.sessions.length →
          (day.sessions.getD j sessDummy).duration = 2 ∧
          (day.sessions.getD j sessDummy).timeSlot
            = (if j < ts.length then ts.getD j "" else mkSlot2 j))
  | 0, _, _ => by simp [fbDays]
  | n + 1, dayIdx, idx => by
      intro day hday
      simp only [fbDays, List.mem_cons] at hday
      rcases hday with rfl | hday
      · obtain ⟨hl, hj⟩ := fbRun_spec ts pool dayIdx spd 0 idx
        refine ⟨hl, ?_⟩
        intro j hjlt
        obtain ⟨p1, p2⟩ := hj j hjlt
        refine ⟨p1, ?_⟩
        rw [p2]
        simp
      · exact fbDays_spec ts pool spd n (dayIdx + 1)
          (fbRun ts pool dayIdx spd 0 idx).2 day hday

theorem getD_of_mem {α : Type} {l : List α} {a : α} (d : α) (h : a ∈ l) :
    ∃ j, j < l.length ∧ l.getD j d = a := by
  obtain ⟨i, hi, rfl⟩ := List.mem_iff_getElem.mp h
  exact ⟨i, hi, List.getD_eq_getElem l d hi⟩

/-- C2: on the enhanced path, the basic generator path and the basic
fallback path, every emitted session has a duration strictly positive and
at most 2 hours, and every day holds at most 4 sessions
(main.py lines 304 to 357 and 826 to 846, timetable_generator.py lines 129
to 172). -/
theorem session_caps :
    (∀ (subjects : List RawSubject) (hpd : ℤ) (ts : List String)
        (t : EnhTimetable), enhancedFallbackRun subjects hpd ts = Except.ok t →
      ∀ day ∈ t.dailySchedule, day.sessions.length ≤ 4 ∧
        ∀ s ∈ day.sessions, 0 < s.duration ∧ s.duration ≤ 2) ∧
    (∀ (subjects : List Subject) (days : ℕ) (hpd : ℤ) (ts : List String)
        (t : GenTimetable), generatorRun subjects days hpd ts = Except.ok t →
      ∀ day ∈ t.dailySchedule, day.sessions.length ≤ 4 ∧
        ∀ s ∈ day.sessions, 0 < s.duration ∧ s.duration ≤ 2) ∧
    (∀ (subjects : List Subject) (days : ℕ) (hpd : ℤ) (ts : List String),
      ∀ day ∈ (fallbackTimetable subjects days hpd ts).dailySchedule,
        day.sessions.length ≤ 4 ∧
        ∀ s ∈ day.sessions, 0 < s.duration ∧ s.duration ≤ 2) := by
  refine ⟨?_, ?_, ?_⟩
  · intro subjects hpd ts t h day hday
    have ht : t = enhancedFallback subjects hpd ts := by
      unfold enhancedFallbackRun at h
      split_ifs at h
      exact (Except.ok.injEq _ _).mp h.symm
    subst ht
    obtain ⟨hl, hj⟩ := packAll_spec ts hpd _ _ 0 _ day hday
    refine ⟨hl, ?_⟩
    intro s hs
    obtain ⟨j, hjlt, rfl⟩ := getD_of_mem sessDummy hs
    obtain ⟨p1, p2, _⟩ := hj j hjlt
    exact ⟨p1, p2⟩
  · intro subjects days hpd ts t h day hday
    have ht : t = generatorTimetable subjects days hpd ts := by
      unfold generatorRun at h
      split_ifs at h
      exact (Except.ok.injEq _ _).mp h.symm
    subst ht
    obtain ⟨hl, hj⟩ := bDays_spec ts hpd days 0 _
      (bTopicPool_good subjects _) day hday
    refine ⟨hl, ?_⟩
    intro s hs
    obtain ⟨j, hjlt, rfl⟩ := getD_of_mem sessDummy hs
    obtain ⟨p1, p2, _⟩ := hj j hjlt
    exact ⟨p1, p2⟩
  · intro subjects days hpd ts day hday
    obtain ⟨hl, hj⟩ := fbDays_spec ts (fbTopicPool subjects)
      ((min (hpd / 2) 4).toNat) (min days 30) 0 0 day hday
    have hspd : ((min (hpd / 2) 4).toNat) ≤ 4 := by omega
    refine ⟨le_trans hl hspd, ?_⟩
    intro s hs
    obtain ⟨j, hjlt, rfl⟩ := getD_of_mem sessDummy hs
    obtain ⟨p1, _⟩ := hj j hjlt
    rw [p1]
    norm_num

theorem session_caps_witness :
    (∀ day ∈ (enhancedFallback [RawSubject.mk "Math"
        (some ["Algebra", "Calculus"]) (some (some 7)) none] 4 []).dailySchedule,
      day.sessions.length ≤ 4 ∧
      ∀ s ∈ day.sessions, 0 < s.duration ∧ s.duration ≤ 2) ∧
    (∀ day ∈ (generatorTimetable [Subject.mk "Math" ["Algebra", "Calculus"] []]
        7 4 []).dailySchedule,
      day.sessions.length ≤ 4 ∧
      ∀ s ∈ day.sessions, 0 < s.duration ∧ s.duration ≤ 2) ∧
    (∀ day ∈ (fallbackTimetable [Subject.mk "Math" ["Algebra", "Calculus"] []]
        10 4 []).dailySchedule,
      day.sessions.length ≤ 4 ∧
      ∀ s ∈ day.sessions, 0 < s.duration ∧ s.duration ≤ 2) :=
  ⟨session_caps.1 [RawSubject.mk "Math" (some ["Algebra", "Calculus"])
      (some (some 7)) none] 4 [] _ (by rfl),
   session_caps.2.1 [Subject.mk "Math" ["Algebra", "Calculus"] []] 7 4 [] _
     (by rfl),
   session_caps.2.2 [Subject.mk "Math" ["Algebra", "Calculus"] []] 10 4 []⟩

/-- C5 counterexample: in the generator's packer with no preferred slots,
the day-1 session of 0-based index 1 (at least the length of the empty
preferred-slot list) is labelled 10:00-12:00, not the 11:00-13:00 that the
claim's formula 9+2i to 11+2i requires (timetable_generator.py line 148). -/
theorem time_slot_synthesis_cex :
    ([] : List String).length ≤ 1 ∧
    ((((generatorTimetable [Subject.mk "Math" ["Algebra", "Calculus"] []]
          7 4 []).dailySchedule.getD 0 dayDummy).sessions.getD 1
        sessDummy).timeSlot = "10:00-12:00") ∧
    "10:00-12:00" ≠ "11:00-13:00" := by decide

/-- C5 amended: the enhanced packer and the main fallback packer assign the
j-th session of a day the j-th preferred slot, or the synthesized label
9+2j to 11+2j when the preferred list is exhausted (so their first two
synthesized slots are 9:00-11:00 and 11:00-13:00); the generator's basic
packer instead synthesizes 9+j to 9+j+duration. -/
theorem time_slot_synthesis_amended :
    mkSlot2 0 = "9:00-11:00" ∧ mkSlot2 1 = "11:00-13:00" ∧
    (∀ (subjects : List RawSubject) (hpd : ℤ) (ts : List String)
        (t : EnhTimetable), enhancedFallbackRun subjects hpd ts = Except.ok t →
      ∀ day ∈ t.dailySchedule, ∀ j, j < day.sessions.length →
        (day.sessions.getD j sessDummy).timeSlot = enhSlot ts j) ∧
    (∀ (subjects : List Subject) (days : ℕ) (hpd : ℤ) (ts : List String),
      ∀ day ∈ (fallbackTimetable subjects days hpd ts).dailySchedule,
        ∀ j, j < day.sessions.length →
          (day.sessions.getD j sessDummy).timeSlot
            = (if j < ts.length then ts.getD j "" else mkSlot2 j)) ∧
    (∀ (subjects : List Subject) (days : ℕ) (hpd : ℤ) (ts : List String)
        (t : GenTimetable), generatorRun subjects days hpd ts = Except.ok t →
      ∀ day ∈ t.dailySchedule, ∀ j, j < day.sessions.length →
        (day.sessions.getD j sessDummy).timeSlot
          = genSlot ts j ((day.sessions.getD j sessDummy).duration)) := by
  refine ⟨by decide, by decide, ?_, ?_, ?_⟩
  · intro subjects hpd ts t h day hday j hj
    have ht : t = enhancedFallback subjects hpd ts := by
      unfold enhancedFallbackRun at h
      split_ifs at h
      exact (Except.ok.injEq _ _).mp h.symm
    subst ht
    exact ((packAll_spec ts hpd _ _ 0 _ day hday).2 j hj).2.2
  · intro subjects days hpd ts day hday j hj
    exact ((fbDays_spec ts (fbTopicPool subjects) ((min (hpd / 2) 4).toNat)
      (min days 30) 0 0 day hday).2 j hj).2
  · intro subjects days hpd ts t h day hday j hj
    have ht : t = generatorTimetable subjects days hpd ts := by
      unfold generatorRun at h
      split_ifs at h
      exact (Except.ok.injEq _ _).mp h.symm
    subst ht
    exact ((bDays_spec ts hpd days 0 _ (bTopicPool_good subjects _)
      day hday).2 j hj).2.2

theorem time_slot_synthesis_amended_witness :
    (∀ day ∈ (enhancedFallback [RawSubject.mk "Math"
        (some ["Algebra", "Calculus"]) (some (some 7)) none] 4 []).dailySchedule,
      ∀ j, j < day.sessions.length →
        (day.sessions.getD j sessDummy).timeSlot = enhSlot [] j) ∧
    (∀ day ∈ (generatorTimetable [Subject.mk "Math" ["Algebra", "Calculus"] []]
        7 4 []).dailySchedule,
      ∀ j, j < day.sessions.length →
        (day.sessions.getD j sessDummy).timeSlot
          = genSlot [] j ((day.sessions.getD j sessDummy).duration)) :=
  ⟨time_slot_synthesis_amended.2.2.1 [RawSubject.mk "Math"
      (some ["Algebra", "Calculus"]) (some (some 7)) none] 4 [] _ (by rfl),
   time_slot_synthesis_amended.2.2.2.2 [Subject.mk "Math"
      ["Algebra", "Calculus"] []] 7 4 [] _ (by rfl)⟩

/-- C6 counterexample: the generator's pool builder keeps the empty topic
name verbatim, and the first emitted session of the run carries that empty
topic (timetable_generator.py lines 100 to 118). -/
theorem topic_filter_cex :
    ((bTopicPool [Subject.mk "Math" ["", "Calculus"] []]
        (calculateSubjectHours [Subject.mk "Math" ["", "Calculus"] []] 28)
      ).map BTopic.topic = ["", "Calculus"]) ∧
    ((((generatorTimetable [Subject.mk "Math" ["", "Calculus"] []] 7 4 []
        ).dailySchedule.getD 0 dayDummy).sessions.getD 0 sessDummy).topic
      = "") := by decide

/-- C6 amended: the enhanced and main-fallback pool builders keep exactly
the topics that are non-empty after stripping, stored stripped; the
generator's basic pool builder performs no filtering and stores every topic
name verbatim, empty ones included. -/
theorem topic_filter_amended :
    (∀ (l : List ASubject) (sh : List (String × ℤ)), ∀ u ∈ buildPool l sh,
      ∃ s ∈ l, ∃ t ∈ s.topics.getD [s.name], u.topic = pyStrip t ∧ u.topic ≠ "") ∧
    (∀ subjects : List Subject, ∀ u ∈ fbTopicPool subjects,
      ∃ s ∈ subjects, ∃ t ∈ s.topics, u.topic = pyStrip t ∧ u.topic ≠ "") ∧
    (∀ (subjects : List Subject) (sh : List (String × ℤ)),
      (bTopicPool subjects sh).map BTopic.topic
        = (subjects.map Subject.topics).flatten) := by
  refine ⟨?_, ?_, ?_⟩
  · intro l sh u hu
    rw [buildPool, mem_sortBy] at hu
    simp only [buildPoolRaw, List.mem_flatten, List.mem_map] at hu
    obtain ⟨inner, ⟨s, hs, rfl⟩, hin⟩ := hu
    obtain ⟨t, htmem, rfl⟩ := List.mem_map.mp hin
    obtain ⟨htmem', hne⟩ := List.mem_filter.mp htmem
    refine ⟨s, hs, t, htmem', rfl, ?_⟩
    simpa using hne
  · intro subjects u hu
    simp only [fbTopicPool, List.mem_flatten, List.mem_map] at hu
    obtain ⟨inner, ⟨s, hs, rfl⟩, hin⟩ := hu
    obtain ⟨t, htmem, rfl⟩ := List.mem_map.mp hin
    obtain ⟨htmem', hne⟩ := List.mem_filter.mp htmem
    refine ⟨s, hs, t, htmem', rfl, ?_⟩
    simpa using hne
  · intro subjects sh
    induction subjects with
    | nil => rfl
    | cons s rest ih =>
        simp only [bTopicPool, List.map_cons, List.flatten_cons,
          List.map_append] at ih ⊢
        rw [ih, List.map_map]
        congr 1
        refine (List.map_congr_left ?_).trans (List.map_id _)
        intro t _
        rfl

theorem topic_filter_amended_witness :
    (∃ s ∈ [ASubject.mk "Math" (some ["Algebra"]) 20 7 1],
      ∃ t ∈ s.topics.getD [s.name],
        (TopicUnit.mk "Math" "Algebra" 20 1 7).topic = pyStrip t ∧
        (TopicUnit.mk "Math" "Algebra" 20 1 7).topic ≠ "") ∧
    (∃ s ∈ [Subject.mk "Math" ["Algebra"] []],
      ∃ t ∈ s.topics,
        (FbTopic.mk "Math" "Algebra" 2).topic = pyStrip t ∧
        (FbTopic.mk "Math" "Algebra" 2).topic ≠ "") :=
  ⟨topic_filter_amended.1 [ASubject.mk "Math" (some ["Algebra"]) 20 7 1]
      [("Math", 20)] (TopicUnit.mk "Math" "Algebra" 20 1 7) (by decide),
   topic_filter_amended.2.1 [Subject.mk "Math" ["Algebra"] []]
      (FbTopic.mk "Math" "Algebra" 2) (by decide)⟩

/-- C7 counterexample: the basic endpoint given an empty subject list does
not reject the request: the generator's division by zero is recovered and a
fallback timetable of ten day schedules is returned (main.py lines 743 to
762 and 764 to 850). -/
theorem empty_subjects_cex :
    basicEndpoint [] 10 4 []
      = Except.ok (TimetableResult.fb (fallbackTimetable [] 10 4 [])) ∧
    (fallbackTimetable [] 10 4 []).dailySchedule.length = 10 := by
  exact ⟨by rfl, by decide⟩

/-- C7 amended: only the enhanced endpoint rejects an empty subject set
(and rejects exactly that with its 400 message); the basic endpoint never
rejects at all, recovering every generator failure, the empty subject set
included, with a fallback schedule. -/
theorem empty_subjects_amended :
    (∀ (subjects : List Subject) (daysUntil : ℕ) (hpd : ℤ) (ts : List String),
      ∃ r, basicEndpoint subjects daysUntil hpd ts = Except.ok r) ∧
    (∀ (hpd : ℤ) (ts : List String),
      enhancedEndpoint [] hpd ts = Except.error "No subjects provided") ∧
    (∀ (subjects : List RawSubject) (hpd : ℤ) (ts : List String),
      enhancedEndpoint subjects hpd ts = Except.error "No subjects provided"
        ↔ subjects = []) := by
  refine ⟨?_, ?_, ?_⟩
  · intro subjects daysUntil hpd ts
    cases hgen : generatorRun subjects daysUntil hpd ts with
    | ok t =>
        exact ⟨TimetableResult.gen t, by simp [basicEndpoint, hgen]⟩
    | error e =>
        exact ⟨TimetableResult.fb (fallbackTimetable subjects daysUntil hpd ts),
          by simp [basicEndpoint, hgen]⟩
  · intro hpd ts
    rfl
  · intro subjects hpd ts
    cases subjects with
    | nil => simp [enhancedEndpoint]
    | cons a rest =>
        simp only [enhancedEndpoint, List.isEmpty_cons, Bool.false_eq_true,
          if_false]
        cases hrun : enhancedFallbackRun (a :: rest) hpd ts with
        | ok t => simp
        | error e => simp

/-- C8 counterexample: the reschedule endpoint's response to two completed
topics carries no day schedules at all, only the status marker and the echo
of the request; no fresh scheduling run is triggered (main.py lines 890 to
921). -/
theorem reschedule_cex :
    (rescheduleEndpoint ["Algebra", "Calculus"] 5).1.dailySchedule = none ∧
    (rescheduleEndpoint ["Algebra", "Calculus"] 5).1.status = "rescheduled" ∧
    (rescheduleEndpoint ["Algebra", "Calculus"] 5).2 = 2 := by decide

/-- C8 amended: the Reschedule Adjuster does not re-run classification,
allocation, pool building or packing: both the endpoint and the generator
method return a static response carrying the status marker rescheduled, the
completed topics and remaining days echoed, the completed-topic count, and
no schedule content. -/
theorem reschedule_contract (ct : List String) (rd : ℤ) :
    (rescheduleEndpoint ct rd).1.status = "rescheduled" ∧
    (rescheduleEndpoint ct rd).1.completedTopics = ct ∧
    (rescheduleEndpoint ct rd).1.remainingDays = rd ∧
    (rescheduleEndpoint ct rd).1.dailySchedule = none ∧
    (rescheduleEndpoint ct rd).2 = ct.length ∧
    (generatorReschedule ct rd).status = "rescheduled" ∧
    (generatorReschedule ct rd).completedTopics = ct ∧
    (generatorReschedule ct rd).remainingDays = rd ∧
    (generatorReschedule ct rd).dailySchedule = none :=
  ⟨rfl, rfl, rfl, rfl, rfl, rfl, rfl, rfl, rfl⟩

end SmartStudy
